import Mathlib

/-!
Shallow embedding of `src/main.js` (fractal-dots), the chaos-game fractal
engine.  JS numbers are modelled as exact rationals (`ℚ`): all arithmetic in
the program (scale, add, lerp) is exact over its idealized real semantics, and
`ℚ` keeps every definition executable.  `ℚ` contains no NaN and no infinity,
so the validity predicates `Point.isNaN` and `Point.isInfinity` — which in JS
test for the IEEE sentinels — are constantly `false` in this embedding.

Randomness (`Math.random()`) is modelled by passing the drawn values
explicitly (`RandDraw`); the timer (`setInterval`) by an optional timer id; the
canvas context by the surface dimensions plus a list of emitted draw events.
-/

/-- `class Point` of `src/main.js`: an immutable pair of coordinates. -/
structure Point where
  x : ℚ
  y : ℚ
deriving DecidableEq, Repr

/-- `Point.prototype.scale(x, y)`: coordinate-wise multiply. -/
def Point.scale (p : Point) (sx sy : ℚ) : Point :=
  ⟨p.x * sx, p.y * sy⟩

/-- `Point.prototype.add(other)`: coordinate-wise sum. -/
def Point.add (p other : Point) : Point :=
  ⟨p.x + other.x, p.y + other.y⟩

/-- `Point.lerp(a, b, mix) = a.add(b.add(a.scale(-1,-1)).scale(mix, mix))`. -/
def Point.lerp (a b : Point) (mix : ℚ) : Point :=
  a.add ((b.add (a.scale (-1) (-1))).scale mix mix)

/-- `Point.prototype.isNaN()`: `isNaN(x) || isNaN(y)`.  A rational is never
the NaN sentinel, so this is constantly `false` in the embedding. -/
def Point.isNaN (_ : Point) : Bool :=
  false

/-- `Point.prototype.isInfinity()`: `|x| = Infinity || |y| = Infinity`.  A
rational is never infinite, so this is constantly `false` in the embedding. -/
def Point.isInfinity (_ : Point) : Bool :=
  false

/-- `ArrayHelper.random(array)` returns
`array[Math.floor(Math.random() * array.length)]`; the draw `r` from `[0,1)`
is passed explicitly.  An out-of-range index would yield `undefined` in JS
(crashing the subsequent arithmetic), modelled by `none`. -/
def ArrayHelper.random {α : Type} (array : List α) (r : ℚ) : Option α :=
  let i : ℤ := ⌊r * (array.length : ℚ)⌋
  if h : 0 ≤ i ∧ i.toNat < array.length then
    some (array.get ⟨i.toNat, h.2⟩)
  else
    none

/-- A drawing command issued to the canvas context: `clearRect`, or the
`drawDotAt` sequence (fillStyle/beginPath/arc/fill) painting one dot. -/
inductive DrawEvent where
  | clearRect (x y w h : ℚ)
  | dot (p : Point)
deriving DecidableEq, Repr

/-- The values `Math.random()` may produce during one `advanceOneDot` call:
`r` for the anchor selection, `px`/`py` for `Point.random()` at reseed. -/
structure RandDraw where
  r : ℚ
  px : ℚ
  py : ℚ
deriving DecidableEq, Repr

/-- The `FractalDots` engine state.  `width`/`height` stand for
`context.canvas.width/height`; draw calls are returned as event lists. -/
structure FractalDots where
  dots : List Point
  runInterval : Option ℕ
  position : Option Point
  stepRatio : ℚ
  sideStep : ℚ
  iterationsPerStep : ℕ
  stepDelay : ℚ
  width : ℚ
  height : ℚ
deriving DecidableEq, Repr

/-- The `FractalDots` constructor: empty anchor list, no timer, absent
position, stepRatio 0.9, sideStep 0, 100 iterations per step, delay 10. -/
def FractalDots.init (width height : ℚ) : FractalDots :=
  { dots := [], runInterval := none, position := none, stepRatio := 9/10,
    sideStep := 0, iterationsPerStep := 100, stepDelay := 10,
    width := width, height := height }

/-- `drawDotAt(point)`: paints one dot on the context. -/
def FractalDots.drawDotAt (point : Point) : List DrawEvent :=
  [DrawEvent.dot point]

/-- `addDot(dot)`: pushes the dot onto `this.dots` and draws it. -/
def FractalDots.addDot (s : FractalDots) (dot : Point) :
    FractalDots × List DrawEvent :=
  ({ s with dots := s.dots ++ [dot] }, FractalDots.drawDotAt dot)

/-- `clear()`: `clearRect` over the whole canvas, then draw every anchor. -/
def FractalDots.clear (s : FractalDots) : FractalDots × List DrawEvent :=
  (s, DrawEvent.clearRect 0 0 s.width s.height :: s.dots.map DrawEvent.dot)

/-- `reset()`: `this.dots = []; this.position = null; this.clear()`. -/
def FractalDots.reset (s : FractalDots) : FractalDots × List DrawEvent :=
  FractalDots.clear { s with dots := [], position := none }

/-- `isRunning()`: `this.runInterval !== null`. -/
def FractalDots.isRunning (s : FractalDots) : Bool :=
  s.runInterval.isSome

/-- `start()`: if `runInterval == null`, store a fresh timer id (the value
`setInterval` returns, passed explicitly); otherwise do nothing. -/
def FractalDots.start (s : FractalDots) (timerId : ℕ) : FractalDots :=
  match s.runInterval with
  | none => { s with runInterval := some timerId }
  | some _ => s

/-- `stop()`: if `runInterval !== null`, cancel it and set it to null. -/
def FractalDots.stop (s : FractalDots) : FractalDots :=
  match s.runInterval with
  | some _ => { s with runInterval := none }
  | none => s

/-- `advanceOneDot()`.  The guard
`position === null || position.isNaN() || position.isInfinity()` reseeds the
position from `Point.random().scale(width, height)` and draws it; otherwise
an anchor is chosen by `ArrayHelper.random`, and the position moves to
`lerp(position, dot, stepRatio) + sideways` and is drawn. -/
def FractalDots.advanceOneDot (s : FractalDots) (rnd : RandDraw) :
    Option (FractalDots × List DrawEvent) :=
  match s.position with
  | none =>
    let p := (Point.mk rnd.px rnd.py).scale s.width s.height
    some ({ s with position := some p }, FractalDots.drawDotAt p)
  | some pos =>
    if pos.isNaN || pos.isInfinity then
      let p := (Point.mk rnd.px rnd.py).scale s.width s.height
      some ({ s with position := some p }, FractalDots.drawDotAt p)
    else
      match ArrayHelper.random s.dots rnd.r with
      | none => none
      | some dot =>
        let diff := dot.add (pos.scale (-1) (-1))
        let sideways := (Point.mk diff.y (-diff.x)).scale
          (s.sideStep * s.stepRatio) (s.sideStep * s.stepRatio)
        let newPos := (Point.lerp pos dot s.stepRatio).add sideways
        some ({ s with position := some newPos }, FractalDots.drawDotAt newPos)

/-- Sequencing of consecutive `advanceOneDot` calls, threading the state and
concatenating the emitted draw events. -/
def FractalDots.advanceList :
    FractalDots → List RandDraw → Option (FractalDots × List DrawEvent)
  | s, [] => some (s, [])
  | s, rnd :: rest => do
    let (s1, ev) ← FractalDots.advanceOneDot s rnd
    let (s2, evs) ← FractalDots.advanceList s1 rest
    pure (s2, ev ++ evs)

/-- `step()` (the spec calls it `tick()`): if fewer than 2 anchors, return;
otherwise run `advanceOneDot` `iterationsPerStep` times.  The random draws of
iteration `i` are `rnd i`. -/
def FractalDots.step (s : FractalDots) (rnd : ℕ → RandDraw) :
    Option (FractalDots × List DrawEvent) :=
  if s.dots.length < 2 then some (s, [])
  else FractalDots.advanceList s ((List.range s.iterationsPerStep).map rnd)

/-- Sequencing of consecutive `step()` (tick) calls. -/
def FractalDots.stepSeq :
    FractalDots → List (ℕ → RandDraw) → Option (FractalDots × List DrawEvent)
  | s, [] => some (s, [])
  | s, rnd :: rest => do
    let (s1, ev) ← FractalDots.step s rnd
    let (s2, evs) ← FractalDots.stepSeq s1 rest
    pure (s2, ev ++ evs)

/-- A `Point` as a vector of `ℚ × ℚ`, to state convexity facts. -/
def Point.toVec (p : Point) : ℚ × ℚ :=
  (p.x, p.y)

/-- The set of vectors of the anchors in `l`. -/
def anchorSet (l : List Point) : Set (ℚ × ℚ) :=
  { v | ∃ d ∈ l, Point.toVec d = v }

/-! ## Helper lemmas -/

/-- With a draw `r` from `[0,1)` and a nonempty array, the index
`⌊r * length⌋` is in bounds and the selected element belongs to the array. -/
theorem ArrayHelper.random_mem {α : Type} (array : List α) (r : ℚ)
    (hlen : 1 ≤ array.length) (h0 : 0 ≤ r) (h1 : r < 1) :
    ∃ a, ArrayHelper.random array r = some a ∧ a ∈ array := by
  have hn : (0 : ℚ) < (array.length : ℚ) := by exact_mod_cast hlen
  have hi0 : 0 ≤ ⌊r * (array.length : ℚ)⌋ :=
    Int.floor_nonneg.mpr (mul_nonneg h0 hn.le)
  have hilt : ⌊r * (array.length : ℚ)⌋ < (array.length : ℤ) := by
    apply Int.floor_lt.mpr
    push_cast
    calc r * (array.length : ℚ) < 1 * (array.length : ℚ) :=
          mul_lt_mul_of_pos_right h1 hn
      _ = (array.length : ℚ) := one_mul _
  have htoNat : (⌊r * (array.length : ℚ)⌋).toNat < array.length := by omega
  unfold ArrayHelper.random
  rw [dif_pos ⟨hi0, htoNat⟩]
  exact ⟨_, rfl, List.get_mem _ _ _⟩

/-- A successful `advanceOneDot` only rewrites the `position` field. -/
theorem FractalDots.advanceOneDot_only_position
    {s s' : FractalDots} {rnd : RandDraw} {ev : List DrawEvent}
    (h : FractalDots.advanceOneDot s rnd = some (s', ev)) :
    s' = { s with position := s'.position } := by
  unfold FractalDots.advanceOneDot at h
  split at h
  · simp only [Option.some.injEq, Prod.mk.injEq] at h
    rw [← h.1]
  · split at h
    · simp only [Option.some.injEq, Prod.mk.injEq] at h
      rw [← h.1]
    · split at h
      · exact absurd h (by simp)
      · simp only [Option.some.injEq, Prod.mk.injEq] at h
        rw [← h.1]

/-- A successful `advanceList` only rewrites the `position` field. -/
theorem FractalDots.advanceList_only_position :
    ∀ (rnds : List RandDraw) {s s' : FractalDots} {evs : List DrawEvent},
      FractalDots.advanceList s rnds = some (s', evs) →
      s' = { s with position := s'.position }
  | [], s, s', evs, h => by
    simp only [FractalDots.advanceList, Option.some.injEq, Prod.mk.injEq] at h
    rw [← h.1]
  | rnd :: rest, s, s', evs, h => by
    simp only [FractalDots.advanceList, Option.bind_eq_bind] at h
    obtain ⟨⟨s1, ev⟩, h1, h⟩ := Option.bind_eq_some.mp h
    obtain ⟨⟨s2, evs2⟩, h2, h3⟩ := Option.bind_eq_some.mp h
    dsimp only at h2 h3
    simp only [Option.pure_def, Option.some.injEq, Prod.mk.injEq] at h3
    have e1 := FractalDots.advanceOneDot_only_position h1
    have e2 := FractalDots.advanceList_only_position rest h2
    rw [← h3.1, e2, e1]

/-- A successful `step` only rewrites the `position` field. -/
theorem FractalDots.step_only_position
    {s s' : FractalDots} {rnd : ℕ → RandDraw} {evs : List DrawEvent}
    (h : FractalDots.step s rnd = some (s', evs)) :
    s' = { s with position := s'.position } := by
  unfold FractalDots.step at h
  split at h
  · simp only [Option.some.injEq, Prod.mk.injEq] at h
    rw [← h.1]
  · exact FractalDots.advanceList_only_position _ h

/-- From a present, valid position with an in-range selection draw and a
nonempty anchor list, `advanceOneDot` succeeds and only moves the position. -/
theorem FractalDots.advanceOneDot_from_valid
    (s : FractalDots) (rnd : RandDraw) (p : Point)
    (hlen : 1 ≤ s.dots.length) (hpos : s.position = some p)
    (h0 : 0 ≤ rnd.r) (h1 : rnd.r < 1) :
    ∃ d p', d ∈ s.dots ∧
      ArrayHelper.random s.dots rnd.r = some d ∧
      p' = (Point.lerp p d s.stepRatio).add
        ((Point.mk (d.add (p.scale (-1) (-1))).y
            (-(d.add (p.scale (-1) (-1))).x)).scale
          (s.sideStep * s.stepRatio) (s.sideStep * s.stepRatio)) ∧
      FractalDots.advanceOneDot s rnd =
        some ({ s with position := some p' }, [DrawEvent.dot p']) := by
  obtain ⟨d, hsel, hmem⟩ := ArrayHelper.random_mem s.dots rnd.r hlen h0 h1
  refine ⟨d, _, hmem, hsel, rfl, ?_⟩
  unfold FractalDots.advanceOneDot
  rw [hpos]
  simp only [Point.isNaN, Point.isInfinity, Bool.or_self, Bool.false_eq_true,
    if_false, hsel, FractalDots.drawDotAt]

/-! ## Claims -/

/-- C2.  `Point.lerp(a, b, mix)` is the coordinate-wise affine combination
`a + (b − a)·mix`; consequently `lerp(a, a, t) = a` for every `t`,
`lerp(a, b, 0) = a` and `lerp(a, b, 1) = b`, and since `mix` ranges over all
scalars no clamping outside `[0, 1]` takes place. -/
theorem Point.lerp_affine_combination :
    (∀ (a b : Point) (mix : ℚ),
        Point.lerp a b mix =
          ⟨a.x + (b.x - a.x) * mix, a.y + (b.y - a.y) * mix⟩) ∧
    (∀ (a : Point) (t : ℚ), Point.lerp a a t = a) ∧
    (∀ a b : Point, Point.lerp a b 0 = a) ∧
    (∀ a b : Point, Point.lerp a b 1 = b) := by
  refine ⟨fun a b mix => ?_, fun a t => ?_, fun a b => ?_, fun a b => ?_⟩
  · cases a; cases b
    simp only [Point.lerp, Point.add, Point.scale, Point.mk.injEq]
    constructor <;> ring
  · cases a
    simp only [Point.lerp, Point.add, Point.scale, Point.mk.injEq]
    constructor <;> ring
  · cases a; cases b
    simp only [Point.lerp, Point.add, Point.scale, Point.mk.injEq]
    constructor <;> ring
  · cases a; cases b
    simp only [Point.lerp, Point.add, Point.scale, Point.mk.injEq]
    constructor <;> ring

/-- C9.  `reset()` empties the anchor set, sets the position to absent, and
emits a single whole-surface clear with no redraw, while preserving every
other field (timer/run state and the four parameters). -/
theorem FractalDots.reset_spec (s : FractalDots) :
    FractalDots.reset s =
      ({ s with dots := [], position := none },
        [DrawEvent.clearRect 0 0 s.width s.height]) ∧
    (FractalDots.reset s).1.runInterval = s.runInterval ∧
    (FractalDots.reset s).1.isRunning = s.isRunning ∧
    (FractalDots.reset s).1.stepRatio = s.stepRatio ∧
    (FractalDots.reset s).1.sideStep = s.sideStep ∧
    (FractalDots.reset s).1.iterationsPerStep = s.iterationsPerStep ∧
    (FractalDots.reset s).1.stepDelay = s.stepDelay := by
  exact ⟨rfl, rfl, rfl, rfl, rfl, rfl, rfl⟩

/-- C6.  With fewer than 2 anchors `step()` (the spec's `tick()`) changes
nothing, draws nothing and raises no error, whatever the position holds; in
particular after `reset()` a `step()` is such a no-op. -/
theorem FractalDots.step_noop_when_few_anchors :
    (∀ (s : FractalDots) (rnd : ℕ → RandDraw), s.dots.length < 2 →
        FractalDots.step s rnd = some (s, [])) ∧
    (∀ (s : FractalDots) (rnd : ℕ → RandDraw),
        FractalDots.step (FractalDots.reset s).1 rnd =
          some ((FractalDots.reset s).1, [])) := by
  constructor
  · intro s rnd h
    unfold FractalDots.step
    rw [if_pos h]
  · intro s rnd
    unfold FractalDots.step
    rw [if_pos (by simp [FractalDots.reset, FractalDots.clear])]

/-- Witness for C6 at a concrete state with no anchors. -/
theorem FractalDots.step_noop_when_few_anchors_witness :
    FractalDots.step (FractalDots.init 300 200) (fun _ => ⟨0, 0, 0⟩) =
      some (FractalDots.init 300 200, []) :=
  FractalDots.step_noop_when_few_anchors.1 (FractalDots.init 300 200)
    (fun _ => ⟨0, 0, 0⟩) (by decide)

/-- C7.  The run state is a two-state machine over `runInterval`:
`isRunning()` is false after construction, true after `start()`, false after
`stop()`, and unchanged by `step()`/`clear()`/`addDot()`; `start()` while
running is a no-op (so two `start()`s leave the single timer of the first,
and one `stop()` after them fully stops), and `stop()` while stopped is a
no-op. -/
theorem FractalDots.run_state_machine :
    (∀ w h : ℚ, (FractalDots.init w h).isRunning = false) ∧
    (∀ (s : FractalDots) (tid : ℕ),
        (FractalDots.start s tid).isRunning = true) ∧
    (∀ s : FractalDots, (FractalDots.stop s).isRunning = false) ∧
    (∀ (s s' : FractalDots) (rnd : ℕ → RandDraw) (evs : List DrawEvent),
        FractalDots.step s rnd = some (s', evs) →
        s'.isRunning = s.isRunning) ∧
    (∀ s : FractalDots, (FractalDots.clear s).1.isRunning = s.isRunning) ∧
    (∀ (s : FractalDots) (d : Point),
        (FractalDots.addDot s d).1.isRunning = s.isRunning) ∧
    (∀ (s : FractalDots) (tid : ℕ),
        s.isRunning = true → FractalDots.start s tid = s) ∧
    (∀ s : FractalDots, s.isRunning = false → FractalDots.stop s = s) ∧
    (∀ (s : FractalDots) (tid1 tid2 : ℕ),
        FractalDots.start (FractalDots.start s tid1) tid2 =
          FractalDots.start s tid1) ∧
    (∀ (s : FractalDots) (tid1 tid2 : ℕ),
        (FractalDots.stop
          (FractalDots.start (FractalDots.start s tid1) tid2)).isRunning =
          false) := by
  refine ⟨fun w h => rfl, ?_, ?_, ?_, fun s => rfl, fun s d => rfl,
    ?_, ?_, ?_, ?_⟩
  · intro s tid
    cases h : s.runInterval <;>
      simp [FractalDots.start, FractalDots.isRunning, h]
  · intro s
    cases h : s.runInterval <;>
      simp [FractalDots.stop, FractalDots.isRunning, h]
  · intro s s' rnd evs hstep
    rw [FractalDots.step_only_position hstep]
    rfl
  · intro s tid hrun
    cases h : s.runInterval with
    | none => simp [FractalDots.isRunning, h] at hrun
    | some j => simp [FractalDots.start, h]
  · intro s hrun
    cases h : s.runInterval with
    | some j => simp [FractalDots.isRunning, h] at hrun
    | none => simp [FractalDots.stop, h]
  · intro s tid1 tid2
    cases h : s.runInterval <;> simp [FractalDots.start, h]
  · intro s tid1 tid2
    cases h : s.runInterval <;>
      simp [FractalDots.start, FractalDots.stop, FractalDots.isRunning, h]

/-- Witness for C7: starting twice from a freshly constructed engine keeps
the first timer, by the idempotence component applied at a running state. -/
theorem FractalDots.run_state_machine_witness :
    FractalDots.start (FractalDots.start (FractalDots.init 300 200) 1) 2 =
      FractalDots.start (FractalDots.init 300 200) 1 :=
  FractalDots.run_state_machine.2.2.2.2.2.2.1
    (FractalDots.start (FractalDots.init 300 200) 1) 2 (by decide)

/-- C10.  With at least 2 anchors and a selection draw `r` from `[0,1)`, the
index `⌊r · length⌋` is in bounds, the chosen anchor is an element of the
anchor list, and a single-step advance from a present position succeeds (the
arithmetic never touches an undefined value). -/
theorem anchor_selection_in_bounds (dots : List Point) (r : ℚ)
    (hlen : 2 ≤ dots.length) (h0 : 0 ≤ r) (h1 : r < 1) :
    (∃ d, ArrayHelper.random dots r = some d ∧ d ∈ dots) ∧
    (∀ (s : FractalDots) (rnd : RandDraw) (p : Point),
        s.dots = dots → rnd.r = r → s.position = some p →
        (FractalDots.advanceOneDot s rnd).isSome = true) := by
  refine ⟨ArrayHelper.random_mem dots r (le_trans one_le_two hlen) h0 h1, ?_⟩
  intro s rnd p hdots hr hpos
  obtain ⟨d, p', hmem, hsel, hp', hadv⟩ :=
    FractalDots.advanceOneDot_from_valid s rnd p
      (by rw [hdots]; exact le_trans one_le_two hlen) hpos
      (hr ▸ h0) (hr ▸ h1)
  rw [hadv]
  rfl

/-- Witness for C10 at the two-anchor list `[(0,0), (2,0)]` and draw 0. -/
theorem anchor_selection_in_bounds_witness :
    (∃ d, ArrayHelper.random [Point.mk 0 0, Point.mk 2 0] 0 = some d ∧
      d ∈ [Point.mk 0 0, Point.mk 2 0]) ∧
    (∀ (s : FractalDots) (rnd : RandDraw) (p : Point),
        s.dots = [Point.mk 0 0, Point.mk 2 0] → rnd.r = 0 →
        s.position = some p →
        (FractalDots.advanceOneDot s rnd).isSome = true) :=
  anchor_selection_in_bounds [Point.mk 0 0, Point.mk 2 0] 0
    (by decide) (le_refl 0) (by norm_num)

/-- Selecting with draw 0 from a nonempty array yields its first element. -/
theorem ArrayHelper.random_zero {α : Type} (a : α) (l : List α) :
    ArrayHelper.random (a :: l) 0 = some a := by
  have h : ⌊(0 : ℚ) * (((a :: l).length : ℕ) : ℚ)⌋ = 0 := by
    rw [zero_mul, Int.floor_zero]
  have hc : 0 ≤ ⌊(0 : ℚ) * (((a :: l).length : ℕ) : ℚ)⌋ ∧
      (⌊(0 : ℚ) * (((a :: l).length : ℕ) : ℚ)⌋).toNat < (a :: l).length := by
    rw [h]
    exact ⟨le_refl 0, Nat.succ_pos l.length⟩
  unfold ArrayHelper.random
  rw [dif_pos hc]
  simp only [h, Int.toNat_zero]
  rfl

/-- C1.  From a present, valid position and a chosen anchor `d`, a single
advance sets the position to `lerp(position, d, stepRatio) + sideways`, where
`sideways` rotates `diff = d − position` by 90° to `(diff.y, −diff.x)` and
scales both coordinates by `sideStep × stepRatio`, and draws exactly that new
position. -/
theorem FractalDots.advanceOneDot_moves_toward_anchor
    (s : FractalDots) (rnd : RandDraw) (p d : Point)
    (hanchors : 2 ≤ s.dots.length)
    (hpos : s.position = some p)
    (hnan : p.isNaN = false) (hinf : p.isInfinity = false)
    (hsel : ArrayHelper.random s.dots rnd.r = some d) :
    FractalDots.advanceOneDot s rnd =
      some
        ({ s with
            position := some
              ((Point.lerp p d s.stepRatio).add
                ((Point.mk (d.y - p.y) (-(d.x - p.x))).scale
                  (s.sideStep * s.stepRatio) (s.sideStep * s.stepRatio))) },
          [DrawEvent.dot
            ((Point.lerp p d s.stepRatio).add
              ((Point.mk (d.y - p.y) (-(d.x - p.x))).scale
                (s.sideStep * s.stepRatio) (s.sideStep * s.stepRatio)))]) := by
  have hq : (Point.mk ((d.add (p.scale (-1) (-1))).y)
        (-((d.add (p.scale (-1) (-1))).x))).scale
        (s.sideStep * s.stepRatio) (s.sideStep * s.stepRatio) =
      (Point.mk (d.y - p.y) (-(d.x - p.x))).scale
        (s.sideStep * s.stepRatio) (s.sideStep * s.stepRatio) := by
    simp only [Point.add, Point.scale, Point.mk.injEq]
    constructor <;> ring
  unfold FractalDots.advanceOneDot
  rw [hpos]
  simp only [Point.isNaN, Point.isInfinity, Bool.or_self, Bool.false_eq_true,
    if_false, hsel, FractalDots.drawDotAt]
  rw [hq]

/-- Witness for C1: anchors `[(0,0), (2,0)]`, position `(1,1)`,
`stepRatio = 1/2`, `sideStep = 1`, selection draw 0 choosing `(0,0)`. -/
theorem FractalDots.advanceOneDot_moves_toward_anchor_witness :
    FractalDots.advanceOneDot
      { FractalDots.init 10 10 with
          dots := [Point.mk 0 0, Point.mk 2 0],
          position := some (Point.mk 1 1), stepRatio := 1/2, sideStep := 1 }
      ⟨0, 0, 0⟩ =
      some
        ({ { FractalDots.init 10 10 with
              dots := [Point.mk 0 0, Point.mk 2 0],
              position := some (Point.mk 1 1), stepRatio := 1/2,
              sideStep := 1 } with
            position := some
              ((Point.lerp (Point.mk 1 1) (Point.mk 0 0) (1/2)).add
                ((Point.mk ((Point.mk 0 0).y - (Point.mk 1 1).y)
                    (-((Point.mk 0 0).x - (Point.mk 1 1).x))).scale
                  (1 * (1/2)) (1 * (1/2)))) },
          [DrawEvent.dot
            ((Point.lerp (Point.mk 1 1) (Point.mk 0 0) (1/2)).add
              ((Point.mk ((Point.mk 0 0).y - (Point.mk 1 1).y)
                  (-((Point.mk 0 0).x - (Point.mk 1 1).x))).scale
                (1 * (1/2)) (1 * (1/2))))]) :=
  FractalDots.advanceOneDot_moves_toward_anchor _ _ (Point.mk 1 1)
    (Point.mk 0 0) (by decide) rfl rfl rfl
    (ArrayHelper.random_zero (Point.mk 0 0) [Point.mk 2 0])

/-- C3.  Whenever the guard holds — the position is absent, has a NaN
coordinate, or has an infinite coordinate — a single advance reseeds the
position with a fresh random point scaled by the surface width and height,
draws it, and returns without selecting or moving toward any anchor; the
result is a normal `some`, never an error. -/
theorem FractalDots.advanceOneDot_reseeds_on_invalid
    (s : FractalDots) (rnd : RandDraw)
    (h : s.position = none ∨
      ∃ p, s.position = some p ∧ (p.isNaN = true ∨ p.isInfinity = true)) :
    FractalDots.advanceOneDot s rnd =
      some
        ({ s with
            position := some ((Point.mk rnd.px rnd.py).scale s.width s.height) },
          [DrawEvent.dot ((Point.mk rnd.px rnd.py).scale s.width s.height)]) := by
  rcases h with h | ⟨p, hp, hbad⟩
  · unfold FractalDots.advanceOneDot
    rw [h]
    rfl
  · rcases hbad with hbad | hbad <;>
      simp [Point.isNaN, Point.isInfinity] at hbad

/-- Witness for C3 at a freshly constructed engine (absent position). -/
theorem FractalDots.advanceOneDot_reseeds_on_invalid_witness :
    FractalDots.advanceOneDot (FractalDots.init 300 200) ⟨0, 1/2, 1/4⟩ =
      some
        ({ FractalDots.init 300 200 with
            position := some ((Point.mk (1/2) (1/4)).scale 300 200) },
          [DrawEvent.dot ((Point.mk (1/2) (1/4)).scale 300 200)]) :=
  FractalDots.advanceOneDot_reseeds_on_invalid (FractalDots.init 300 200)
    ⟨0, 1/2, 1/4⟩ (Or.inl rfl)

/-- C8 counterexample: with the anchor `(1,2)` already present, `addDot (1,2)`
followed by `clear()` makes `clear()` draw `(1,2)` twice, not exactly once. -/
theorem FractalDots.clear_after_addDot_draws_twice :
    ((FractalDots.clear
        (FractalDots.addDot
          { FractalDots.init 4 4 with dots := [Point.mk 1 2] }
          (Point.mk 1 2)).1).2).count (DrawEvent.dot (Point.mk 1 2)) = 2 := by
  decide

/-- C8 (amended).  `clear()` erases the whole surface and then issues exactly
one draw per anchor occurrence, in insertion order, never drawing the moving
position; hence `addDot P` followed by `clear()` yields exactly one draw of
`P` from `clear()` provided `P` was not already an anchor (in general, one
draw per occurrence of `P`). -/
theorem FractalDots.clear_redraws_each_anchor :
    (∀ s : FractalDots,
        FractalDots.clear s =
          (s, DrawEvent.clearRect 0 0 s.width s.height ::
            s.dots.map DrawEvent.dot)) ∧
    (∀ (s : FractalDots) (P : Point), P ∉ s.dots →
        ((FractalDots.clear (FractalDots.addDot s P).1).2).count
          (DrawEvent.dot P) = 1) := by
  refine ⟨fun s => rfl, ?_⟩
  intro s P hP
  show (DrawEvent.clearRect 0 0 s.width s.height ::
      (s.dots ++ [P]).map DrawEvent.dot).count (DrawEvent.dot P) = 1
  have h1 : (s.dots.map DrawEvent.dot).count (DrawEvent.dot P) = 0 := by
    rw [List.count_eq_zero]
    intro hmem
    obtain ⟨q, hq, he⟩ := List.mem_map.mp hmem
    injection he with he
    exact hP (he ▸ hq)
  simp [List.count_cons, List.map_append, List.count_append, h1]

/-- Witness for C8 (amended) at a state whose single anchor differs from the
added point. -/
theorem FractalDots.clear_redraws_each_anchor_witness :
    ((FractalDots.clear
        (FractalDots.addDot
          { FractalDots.init 4 4 with dots := [Point.mk 3 3] }
          (Point.mk 1 2)).1).2).count (DrawEvent.dot (Point.mk 1 2)) = 1 :=
  FractalDots.clear_redraws_each_anchor.2
    { FractalDots.init 4 4 with dots := [Point.mk 3 3] } (Point.mk 1 2)
    (by decide)

/-- With `sideStep = 0` and the selection draw in range, one advance moves
the position to a convex combination of the old position and an anchor, so
membership in the convex hull of the anchor set is preserved. -/
theorem FractalDots.advanceOneDot_hull_step
    (s : FractalDots) (rnd : RandDraw) (p : Point)
    (hlen : 1 ≤ s.dots.length)
    (h0 : 0 ≤ rnd.r) (h1 : rnd.r < 1)
    (ht0 : 0 ≤ s.stepRatio) (ht1 : s.stepRatio ≤ 1)
    (hside : s.sideStep = 0)
    (hpos : s.position = some p)
    (hp : p.toVec ∈ convexHull ℚ (anchorSet s.dots)) :
    ∃ p', FractalDots.advanceOneDot s rnd =
        some ({ s with position := some p' }, [DrawEvent.dot p']) ∧
      p'.toVec ∈ convexHull ℚ (anchorSet s.dots) := by
  obtain ⟨d, p', hmem, hsel, hpdef, hadv⟩ :=
    FractalDots.advanceOneDot_from_valid s rnd p hlen hpos h0 h1
  refine ⟨p', hadv, ?_⟩
  have hvec : p'.toVec =
      (1 - s.stepRatio) • p.toVec + s.stepRatio • d.toVec := by
    rw [hpdef]
    simp only [Point.toVec, Point.lerp, Point.add, Point.scale, hside,
      Prod.smul_mk, smul_eq_mul, Prod.mk_add_mk, Prod.mk.injEq]
    constructor <;> ring
  rw [hvec]
  exact (convex_convexHull ℚ (anchorSet s.dots)) hp
    (subset_convexHull ℚ (anchorSet s.dots) ⟨d, hmem, rfl⟩)
    (by linarith) ht0 (by ring)

/-- C4.  With at least two anchors, interpolation ratio in `(0,1)` and
lateral coefficient 0, any sequence of single-step advances (each selecting
its anchor with an in-range draw) succeeds and keeps the position inside the
convex hull of the anchor set: the position stays bounded. -/
theorem FractalDots.position_stays_in_convexHull :
    ∀ (rnds : List RandDraw) (s : FractalDots) (p : Point),
      2 ≤ s.dots.length → 0 < s.stepRatio → s.stepRatio < 1 →
      s.sideStep = 0 → s.position = some p →
      p.toVec ∈ convexHull ℚ (anchorSet s.dots) →
      (∀ rnd ∈ rnds, 0 ≤ rnd.r ∧ rnd.r < 1) →
      ∃ (s' : FractalDots) (evs : List DrawEvent),
        FractalDots.advanceList s rnds = some (s', evs) ∧
        s'.dots = s.dots ∧
        ∃ p', s'.position = some p' ∧
          p'.toVec ∈ convexHull ℚ (anchorSet s.dots)
  | [], s, p, hlen, ht0, ht1, hside, hpos, hp, hr =>
    ⟨s, [], rfl, rfl, p, hpos, hp⟩
  | rnd :: rest, s, p, hlen, ht0, ht1, hside, hpos, hp, hr => by
    obtain ⟨p1, hadv, hp1⟩ :=
      FractalDots.advanceOneDot_hull_step s rnd p
        (le_trans one_le_two hlen) (hr rnd (List.mem_cons_self rnd rest)).1
        (hr rnd (List.mem_cons_self rnd rest)).2 ht0.le ht1.le hside hpos hp
    obtain ⟨s2, evs2, hrest, hdots, p2, hpos2, hp2⟩ :=
      FractalDots.position_stays_in_convexHull rest
        { s with position := some p1 } p1 hlen ht0 ht1 hside rfl hp1
        (fun x hx => hr x (List.mem_cons_of_mem rnd hx))
    refine ⟨s2, DrawEvent.dot p1 :: evs2, ?_, hdots, p2, hpos2, hp2⟩
    simp only [FractalDots.advanceList, hadv, Option.bind_eq_bind,
      Option.some_bind, hrest]
    rfl

/-- Witness for C4: anchors `[(0,0), (2,0)]`, ratio 1/2, start at the anchor
`(0,0)`, one advance with draw 0. -/
theorem FractalDots.position_stays_in_convexHull_witness :
    ∃ (s' : FractalDots) (evs : List DrawEvent),
      FractalDots.advanceList
        { FractalDots.init 10 10 with
            dots := [Point.mk 0 0, Point.mk 2 0],
            position := some (Point.mk 0 0), stepRatio := 1/2 }
        [⟨0, 0, 0⟩] = some (s', evs) ∧
      s'.dots = [Point.mk 0 0, Point.mk 2 0] ∧
      ∃ p', s'.position = some p' ∧
        p'.toVec ∈ convexHull ℚ (anchorSet [Point.mk 0 0, Point.mk 2 0]) :=
  FractalDots.position_stays_in_convexHull [⟨0, 0, 0⟩] _ (Point.mk 0 0)
    (by decide) (by norm_num) (by norm_num) rfl rfl
    (subset_convexHull ℚ _ ⟨Point.mk 0 0, List.mem_cons_self _ _, rfl⟩)
    (by
      intro rnd hrnd
      rw [List.mem_singleton] at hrnd
      subst hrnd
      exact ⟨le_refl 0, by norm_num⟩)

/-- From a present position, a sequence of advances with in-range draws
succeeds and only rewrites the position, which stays present. -/
theorem FractalDots.advanceList_valid :
    ∀ (rnds : List RandDraw) (s : FractalDots) (p : Point),
      1 ≤ s.dots.length → s.position = some p →
      (∀ rnd ∈ rnds, 0 ≤ rnd.r ∧ rnd.r < 1) →
      ∃ (s' : FractalDots) (evs : List DrawEvent) (p' : Point),
        FractalDots.advanceList s rnds = some (s', evs) ∧
        s' = { s with position := some p' }
  | [], s, p, hlen, hpos, hr => ⟨s, [], p, rfl, by rw [← hpos]⟩
  | rnd :: rest, s, p, hlen, hpos, hr => by
    obtain ⟨d, p1, hmem, hsel, hp1def, hadv⟩ :=
      FractalDots.advanceOneDot_from_valid s rnd p hlen hpos
        (hr rnd (List.mem_cons_self rnd rest)).1
        (hr rnd (List.mem_cons_self rnd rest)).2
    obtain ⟨s2, evs2, p2, hrest, hs2⟩ :=
      FractalDots.advanceList_valid rest { s with position := some p1 } p1
        hlen rfl (fun x hx => hr x (List.mem_cons_of_mem rnd hx))
    refine ⟨s2, DrawEvent.dot p1 :: evs2, p2, ?_, ?_⟩
    · simp only [FractalDots.advanceList, hadv, Option.bind_eq_bind,
        Option.some_bind, hrest]
      rfl
    · rw [hs2]

/-- With at least two anchors and a present position, one `step()` (tick)
with in-range draws succeeds and only rewrites the position, which stays
present. -/
theorem FractalDots.step_valid (s : FractalDots) (rnd : ℕ → RandDraw)
    (p : Point) (hlen : 2 ≤ s.dots.length) (hpos : s.position = some p)
    (hr : ∀ i : ℕ, 0 ≤ (rnd i).r ∧ (rnd i).r < 1) :
    ∃ (s' : FractalDots) (evs : List DrawEvent) (p' : Point),
      FractalDots.step s rnd = some (s', evs) ∧
      s' = { s with position := some p' } := by
  obtain ⟨s', evs, p', hal, hs'⟩ :=
    FractalDots.advanceList_valid ((List.range s.iterationsPerStep).map rnd)
      s p (le_trans one_le_two hlen) hpos
      (by
        intro x hx
        obtain ⟨i, hi, rfl⟩ := List.mem_map.mp hx
        exact hr i)
  refine ⟨s', evs, p', ?_, hs'⟩
  unfold FractalDots.step
  rw [if_neg (by omega), hal]

/-- C5.  With at least 2 anchors, all anchors finite, and `sideStep = 0`,
once the position is present and valid no sequence of `tick()`s ever reseeds
it: every tick succeeds and the position after it is still present, non-NaN
and finite, for every setting of the interpolation ratio (none is assumed). -/
theorem FractalDots.no_reseed_without_sideStep :
    ∀ (ticks : List (ℕ → RandDraw)) (s : FractalDots) (p : Point),
      2 ≤ s.dots.length →
      (∀ d ∈ s.dots, d.isNaN = false ∧ d.isInfinity = false) →
      s.sideStep = 0 →
      s.position = some p → p.isNaN = false → p.isInfinity = false →
      (∀ rnd ∈ ticks, ∀ i : ℕ, 0 ≤ (rnd i).r ∧ (rnd i).r < 1) →
      ∃ (s' : FractalDots) (evs : List DrawEvent) (p' : Point),
        FractalDots.stepSeq s ticks = some (s', evs) ∧
        s'.dots = s.dots ∧ s'.position = some p' ∧
        p'.isNaN = false ∧ p'.isInfinity = false
  | [], s, p, hlen, hdots, hside, hpos, hnan, hinf, hr =>
    ⟨s, [], p, rfl, rfl, hpos, rfl, rfl⟩
  | tick :: rest, s, p, hlen, hdots, hside, hpos, hnan, hinf, hr => by
    obtain ⟨s1, evs1, p1, hstep, hs1⟩ :=
      FractalDots.step_valid s tick p hlen hpos
        (hr tick (List.mem_cons_self tick rest))
    obtain ⟨s2, evs2, p2, hrest, hdots2, hpos2, hnan2, hinf2⟩ :=
      FractalDots.no_reseed_without_sideStep rest s1 p1
        (by rw [hs1]; exact hlen)
        (by rw [hs1]; exact hdots)
        (by rw [hs1]; exact hside)
        (by rw [hs1]) rfl rfl
        (fun x hx => hr x (List.mem_cons_of_mem tick hx))
    refine ⟨s2, evs1 ++ evs2, p2, ?_, ?_, hpos2, hnan2, hinf2⟩
    · simp only [FractalDots.stepSeq, hstep, Option.bind_eq_bind,
        Option.some_bind, hrest]
      rfl
    · rw [hdots2, hs1]

/-- Witness for C5: two anchors, valid start position `(1,1)`, one tick of
three iterations with draw 0, default interpolation ratio. -/
theorem FractalDots.no_reseed_without_sideStep_witness :
    ∃ (s' : FractalDots) (evs : List DrawEvent) (p' : Point),
      FractalDots.stepSeq
        { FractalDots.init 10 10 with
            dots := [Point.mk 0 0, Point.mk 2 0],
            position := some (Point.mk 1 1), iterationsPerStep := 3 }
        [fun _ => ⟨0, 0, 0⟩] = some (s', evs) ∧
      s'.dots = [Point.mk 0 0, Point.mk 2 0] ∧ s'.position = some p' ∧
      p'.isNaN = false ∧ p'.isInfinity = false :=
  FractalDots.no_reseed_without_sideStep [fun _ => ⟨0, 0, 0⟩] _ (Point.mk 1 1)
    (by decide) (fun d _ => ⟨rfl, rfl⟩) rfl rfl rfl rfl
    (by
      intro rnd hrnd i
      rw [List.mem_singleton] at hrnd
      subst hrnd
      exact ⟨le_refl 0, by norm_num⟩)
